import Mathlib

/-!
Shallow embedding of the token-bucket rate limiter from `src/main.go`
(package `limiter`; the file contains two identical copies of the code).

Modelling conventions:
  * `time.Time` / `time.Duration` values are `Int` nanosecond counts.
  * Go's integer division and remainder on `time.Duration` (a 64-bit
    integer type) truncate toward zero: `Int.tdiv` / `Int.tmod`.
  * Go panics on integer division by zero; an operation that would
    divide by a zero `interval` is modelled as returning `none`.
  * The Go map `map[string]*bucket` is modelled as an association list
    with in-place update; mutation through the bucket pointer becomes
    re-insertion of the updated bucket under the same key.
  * `time.Hour` (the hard-coded `cleanupAfter`) is 3600000000000 ns.
-/

namespace Limiter

structure bucket where
  tokens : Int
  lastSeen : Int
  lastRefil : Int
deriving DecidableEq

structure RateLimiter where
  tokens : List (String × bucket)
  rate : Int
  interval : Int
  maxTokens : Int
  cleanupAfter : Int
deriving DecidableEq

/-- Lookup in the modelled Go map: first entry with the given key. -/
def find : List (String × bucket) → String → Option bucket
  | [], _ => none
  | (k, b) :: rest, key => if k = key then some b else find rest key

/-- `m[key] = b` on the modelled Go map: replace the existing entry for
`key`, or append a new one. -/
def insert : List (String × bucket) → String → bucket → List (String × bucket)
  | [], key, b => [(key, b)]
  | (k, b0) :: rest, key, b =>
    if k = key then (k, b) :: rest else (k, b0) :: insert rest key b

/-- `NewRateLimiter(rate, interval, maxTokens)`: empty map, fixed
`cleanupAfter = time.Hour`. -/
def NewRateLimiter (rate : Int) (interval : Int) (maxTokens : Int) : RateLimiter :=
  { tokens := []
    rate := rate
    interval := interval
    maxTokens := maxTokens
    cleanupAfter := 3600000000000 }

/-- `(rl *RateLimiter) Allow(key) bool`, at explicit time `now`.
Returns `none` exactly when the Go code would panic (division of
`elapsed` by a zero `interval`). -/
def Allow (rl : RateLimiter) (key : String) (now : Int) : Option (Bool × RateLimiter) :=
  match find rl.tokens key with
  | none =>
    some (true, { rl with
      tokens := insert rl.tokens key
        { tokens := rl.maxTokens - 1, lastSeen := now, lastRefil := now } })
  | some b =>
    let b1 : bucket := { b with lastSeen := now }
    if rl.interval = 0 then none
    else
      let elapsed := now - b1.lastRefil
      let tokensToAdd := Int.tdiv elapsed rl.interval * rl.rate
      let b2 : bucket :=
        if tokensToAdd > 0 then
          { b1 with tokens := min (b1.tokens + tokensToAdd) rl.maxTokens
                    lastRefil := now }
        else b1
      if b2.tokens > 0 then
        some (true, { rl with
          tokens := insert rl.tokens key { b2 with tokens := b2.tokens - 1 } })
      else
        some (false, { rl with tokens := insert rl.tokens key b2 })

/-- `(rl *RateLimiter) RemainingTokens(key) int`, at explicit time `now`.
The Go function mutates nothing; the unchanged limiter is returned
alongside the value to make that frame property a statable fact. -/
def RemainingTokens (rl : RateLimiter) (key : String) (now : Int) :
    Option (Int × RateLimiter) :=
  match find rl.tokens key with
  | none => some (rl.maxTokens, rl)
  | some b =>
    if rl.interval = 0 then none
    else
      let elapsed := now - b.lastRefil
      let tokensToAdd := Int.tdiv elapsed rl.interval * rl.rate
      some (min (b.tokens + tokensToAdd) rl.maxTokens, rl)

/-- `(rl *RateLimiter) NextAvailable(key) time.Duration`, at explicit
time `now`. -/
def NextAvailable (rl : RateLimiter) (key : String) (now : Int) :
    Option (Int × RateLimiter) :=
  match find rl.tokens key with
  | none => some (0, rl)
  | some b =>
    if b.tokens > 0 then some (0, rl)
    else if rl.interval = 0 then none
    else
      let elapsed := now - b.lastRefil
      some (rl.interval - Int.tmod elapsed rl.interval, rl)

/-- One sweep of the body of `(rl *RateLimiter) cleanup()`'s ticker
loop, at explicit time `now`: delete every bucket with
`now.Sub(bucket.lastSeen) > rl.cleanupAfter`. -/
def cleanupPass (rl : RateLimiter) (now : Int) : RateLimiter :=
  { rl with
    tokens := rl.tokens.filter (fun kb => ! decide (now - kb.2.lastSeen > rl.cleanupAfter)) }

/-- An operation on the limiter, tagged with the `time.Now()` it
observes. -/
inductive Op where
  | allow (key : String) (now : Int)
  | remaining (key : String) (now : Int)
  | next (key : String) (now : Int)
  | sweep (now : Int)

/-- State transition of a single operation (`none` = Go panic). -/
def step (rl : RateLimiter) : Op → Option RateLimiter
  | .allow key now => (Allow rl key now).map Prod.snd
  | .remaining key now => (RemainingTokens rl key now).map Prod.snd
  | .next key now => (NextAvailable rl key now).map Prod.snd
  | .sweep now => some (cleanupPass rl now)

/-- Run a sequence of operations. -/
def runOps (rl : RateLimiter) : List Op → Option RateLimiter
  | [] => some rl
  | op :: rest =>
    match step rl op with
    | none => none
    | some rl2 => runOps rl2 rest

/-- The list of results of `k` consecutive `Allow` calls for one key,
all observing the same `now` (no time advancement between calls). -/
def allowResults : RateLimiter → String → Int → Nat → Option (List Bool)
  | _, _, _, 0 => some []
  | rl, key, now, Nat.succ k =>
    match Allow rl key now with
    | none => none
    | some (res, rl2) =>
      match allowResults rl2 key now k with
      | none => none
      | some rest => some (res :: rest)

/-- The refill amount `int(elapsed/rl.interval) * rl.rate` computed by
`Allow` and `RemainingTokens` for an existing bucket. -/
def refillAmount (rl : RateLimiter) (b : bucket) (now : Int) : Int :=
  Int.tdiv (now - b.lastRefil) rl.interval * rl.rate

/-- The capped post-refill token count `min(b.tokens+tokensToAdd, rl.maxTokens)`. -/
def refilledTokens (rl : RateLimiter) (b : bucket) (now : Int) : Int :=
  min (b.tokens + refillAmount rl b now) rl.maxTokens

theorem find_insert (m : List (String × bucket)) (key k : String) (b : bucket) :
    find (insert m key b) k = if key = k then some b else find m k := by
  induction m with
  | nil => simp [insert, find]
  | cons kb rest ih =>
    obtain ⟨k0, b0⟩ := kb
    by_cases h0 : k0 = key
    · subst h0
      by_cases hk : k0 = k <;> simp [insert, find, hk]
    · by_cases hk : k0 = k
      · subst hk
        have hkey : ¬ key = k0 := fun h => h0 h.symm
        simp [insert, find, h0, hkey]
      · simp [insert, find, h0, hk, ih]

theorem mem_insert {m : List (String × bucket)} {key : String} {b : bucket}
    {kb : String × bucket} (h : kb ∈ insert m key b) : kb = (key, b) ∨ kb ∈ m := by
  induction m with
  | nil => simpa [insert] using h
  | cons kb0 rest ih =>
    obtain ⟨k0, b0⟩ := kb0
    by_cases h0 : k0 = key
    · subst h0
      rw [show insert ((k0, b0) :: rest) k0 b = (k0, b) :: rest by simp [insert]] at h
      rcases List.mem_cons.mp h with h | h
      · exact Or.inl h
      · exact Or.inr (List.mem_cons_of_mem _ h)
    · simp only [insert, if_neg h0, List.mem_cons] at h
      rcases h with h | h
      · exact Or.inr (h ▸ List.mem_cons_self _ _)
      · rcases ih h with h2 | h2
        · exact Or.inl h2
        · exact Or.inr (List.mem_cons_of_mem _ h2)

theorem find_mem {m : List (String × bucket)} {key : String} {b : bucket}
    (h : find m key = some b) : (key, b) ∈ m := by
  induction m with
  | nil => simp [find] at h
  | cons kb rest ih =>
    obtain ⟨k0, b0⟩ := kb
    by_cases h0 : k0 = key
    · subst h0
      rw [find, if_pos rfl] at h
      obtain rfl : b0 = b := by injection h
      exact List.mem_cons_self _ _
    · rw [find, if_neg h0] at h
      exact List.mem_cons_of_mem _ (ih h)

theorem find_eq_none {m : List (String × bucket)} {key : String}
    (h : key ∉ m.map Prod.fst) : find m key = none := by
  induction m with
  | nil => rfl
  | cons kb rest ih =>
    obtain ⟨k0, b0⟩ := kb
    have h1 : ¬ (k0 = key) := fun e => h (by simp [e])
    have h2 : key ∉ rest.map Prod.fst := fun e => h (by simp [e])
    rw [find, if_neg h1]
    exact ih h2

theorem find_filter (m : List (String × bucket)) (p : String × bucket → Bool)
    (k : String) (hnd : (m.map Prod.fst).Nodup) :
    find (m.filter p) k =
      match find m k with
      | none => none
      | some b => if p (k, b) then some b else none := by
  induction m with
  | nil => rfl
  | cons kb rest ih =>
    obtain ⟨k0, b0⟩ := kb
    simp only [List.map_cons, List.nodup_cons] at hnd
    obtain ⟨hk0, hnd'⟩ := hnd
    by_cases hp : p (k0, b0)
    · rw [List.filter_cons_of_pos hp]
      by_cases hk : k0 = k
      · subst hk
        simp [find, hp]
      · simp [find, hk, ih hnd']
    · rw [List.filter_cons_of_neg (by simpa using hp)]
      by_cases hk : k0 = k
      · subst hk
        have hout : k0 ∉ (rest.filter p).map Prod.fst := by
          intro hmem
          exact hk0 ((List.Sublist.map Prod.fst (List.filter_sublist _)).subset hmem)
        simp [find, find_eq_none hout, hp]
      · simp [find, hk, ih hnd']

theorem allow_new {rl : RateLimiter} {key : String} (now : Int)
    (h : find rl.tokens key = none) :
    Allow rl key now = some (true, { rl with
      tokens := insert rl.tokens key
        { tokens := rl.maxTokens - 1, lastSeen := now, lastRefil := now } }) := by
  simp [Allow, h]

theorem allow_norefill {rl : RateLimiter} {key : String} {now : Int} {b : bucket}
    (h : find rl.tokens key = some b) (hi : rl.interval ≠ 0)
    (hq : ¬ refillAmount rl b now > 0) :
    Allow rl key now =
      if b.tokens > 0 then
        some (true, { rl with
          tokens := insert rl.tokens key
            { tokens := b.tokens - 1, lastSeen := now, lastRefil := b.lastRefil } })
      else
        some (false, { rl with
          tokens := insert rl.tokens key
            { tokens := b.tokens, lastSeen := now, lastRefil := b.lastRefil } }) := by
  rw [refillAmount] at hq
  simp [Allow, h, hi, hq]

theorem allow_refill {rl : RateLimiter} {key : String} {now : Int} {b : bucket}
    (h : find rl.tokens key = some b) (hi : rl.interval ≠ 0)
    (hq : refillAmount rl b now > 0) :
    Allow rl key now =
      if refilledTokens rl b now > 0 then
        some (true, { rl with
          tokens := insert rl.tokens key
            { tokens := refilledTokens rl b now - 1, lastSeen := now, lastRefil := now } })
      else
        some (false, { rl with
          tokens := insert rl.tokens key
            { tokens := refilledTokens rl b now, lastSeen := now, lastRefil := now } }) := by
  rw [refillAmount] at hq
  simp [Allow, h, hi, hq, refilledTokens, refillAmount]

theorem nat_min_eq (a b : Nat) : Nat.min a b = if a ≤ b then a else b := by
  simp [Nat.min_def]

theorem allowResults_succ (rl : RateLimiter) (key : String) (now : Int) (k : Nat) :
    allowResults rl key now (k + 1) =
      match Allow rl key now with
      | none => none
      | some (res, rl2) =>
        match allowResults rl2 key now k with
        | none => none
        | some rest => some (res :: rest) := rfl

/-- Draining a bucket: if the bucket's `lastRefil` equals the current
time, no refill happens, and `k` consecutive `Allow` calls return
`true` while tokens remain, then `false`. -/
theorem allow_drain (k : Nat) :
    ∀ (rl : RateLimiter) (key : String) (now : Int) (t : Nat) (s : Int),
      find rl.tokens key = some { tokens := (t : Int), lastSeen := s, lastRefil := now } →
      rl.interval ≠ 0 →
      allowResults rl key now k =
        some (List.replicate (Nat.min t k) true ++ List.replicate (k - Nat.min t k) false) := by
  induction k with
  | zero => intro rl key now t s hb hi; simp [allowResults]
  | succ k ih =>
    intro rl key now t s hb hi
    have hq : ¬ refillAmount rl { tokens := (t : Int), lastSeen := s, lastRefil := now } now > 0 := by
      simp [refillAmount]
    have hA := allow_norefill hb hi hq
    rcases Nat.eq_zero_or_pos t with rfl | ht
    · rw [if_neg (by simp)] at hA
      have hb2 : find ({ rl with
          tokens := insert rl.tokens key
            { tokens := ((0 : Nat) : Int), lastSeen := now, lastRefil := now } } :
            RateLimiter).tokens key = some
          { tokens := ((0 : Nat) : Int), lastSeen := now, lastRefil := now } := by
        simp [find_insert]
      have := ih _ key now 0 now hb2 hi
      simp only [allowResults, hA, this, Nat.zero_min, Nat.min_zero, List.replicate_zero,
        List.nil_append, Nat.sub_zero]
      simp [List.replicate_succ]
    · rw [if_pos (by exact Int.ofNat_pos.mpr ht)] at hA
      have hcast : ((t : Int) - 1) = ((t - 1 : Nat) : Int) := by omega
      have hb2 : find ({ rl with
          tokens := insert rl.tokens key
            { tokens := (t : Int) - 1, lastSeen := now, lastRefil := now } } :
            RateLimiter).tokens key = some
          { tokens := ((t - 1 : Nat) : Int), lastSeen := now, lastRefil := now } := by
        simp [find_insert, hcast]
      have := ih _ key now (t - 1) now hb2 hi
      simp only [allowResults, hA, this]
      have h1 : Nat.min t (k + 1) = Nat.min (t - 1) k + 1 := by
        rw [nat_min_eq, nat_min_eq]
        split_ifs <;> omega
      rw [h1, List.replicate_succ]
      have h2 : k + 1 - (Nat.min (t - 1) k + 1) = k - Nat.min (t - 1) k := by omega
      rw [h2]
      simp

/-- Claim C3: for a fresh key with `maxTokens = N ≥ 1` and no time
advancement, the first `N` `Allow` calls return `true` and the
`(N+1)`-th returns `false`. -/
theorem c3_burst (rl : RateLimiter) (key : String) (now : Int) (N : Nat)
    (hfresh : find rl.tokens key = none) (hM : rl.maxTokens = (N : Int))
    (hN : 1 ≤ N) (hi : rl.interval ≠ 0) :
    allowResults rl key now (N + 1) = some (List.replicate N true ++ [false]) := by
  obtain ⟨P, rfl⟩ : ∃ P, N = P + 1 := ⟨N - 1, by omega⟩
  have hA := allow_new now hfresh
  have hcast : rl.maxTokens - 1 = ((P : Nat) : Int) := by omega
  have hb2 : find ({ rl with
      tokens := insert rl.tokens key
        { tokens := rl.maxTokens - 1, lastSeen := now, lastRefil := now } } :
        RateLimiter).tokens key = some
      { tokens := ((P : Nat) : Int), lastSeen := now, lastRefil := now } := by
    simp [find_insert, hcast]
  have hdrain := allow_drain (P + 1) _ key now P now hb2 hi
  rw [allowResults_succ, hA]
  simp only [hdrain]
  have h1 : Nat.min P (P + 1) = P := by
    rw [nat_min_eq]
    split_ifs <;> omega
  rw [h1]
  have h2 : P + 1 - P = 1 := by omega
  rw [h2, List.replicate_succ]
  simp [List.replicate_succ, List.cons_append]

/-- Witness for C3: `maxTokens = 3`: four calls on a fresh key give
`true, true, true, false`. -/
theorem c3_burst_w :
    allowResults (NewRateLimiter 1 10 3) "a" 0 4 = some [true, true, true, false] := by
  have h := c3_burst (NewRateLimiter 1 10 3) "a" 0 3 rfl (by decide) (by decide) (by decide)
  exact h.trans (by decide)

/-- Claim C4: after a bucket is exhausted (tokens = 0), advancing time
by exactly one `interval` and calling `Allow` repeatedly with no
further time advancement yields exactly `min(rate, maxTokens)` `true`
results before `false` recurs. -/
theorem c4_refill_after_interval (rl : RateLimiter) (key : String) (b : bucket)
    (hb : find rl.tokens key = some b) (ht : b.tokens = 0)
    (hi : 0 < rl.interval) (hr : 0 ≤ rl.rate) (hN : 0 ≤ rl.maxTokens) :
    allowResults rl key (b.lastRefil + rl.interval) ((min rl.rate rl.maxTokens).toNat + 1) =
      some (List.replicate (min rl.rate rl.maxTokens).toNat true ++ [false]) := by
  have hi0 : rl.interval ≠ 0 := by omega
  have helapsed : b.lastRefil + rl.interval - b.lastRefil = rl.interval := by omega
  have hamount : refillAmount rl b (b.lastRefil + rl.interval) = rl.rate := by
    rw [refillAmount, helapsed, Int.tdiv_self hi0, one_mul]
  rcases eq_or_lt_of_le hr with hr0 | hr1
  · have hT : min rl.rate rl.maxTokens = 0 := by
      rw [← hr0]
      exact min_eq_left hN
    have hq : ¬ refillAmount rl b (b.lastRefil + rl.interval) > 0 := by rw [hamount]; omega
    have hA := allow_norefill hb hi0 hq
    rw [if_neg (by omega : ¬ b.tokens > 0)] at hA
    rw [hT]
    rw [allowResults_succ, hA]
    rfl
  · have hq : refillAmount rl b (b.lastRefil + rl.interval) > 0 := by rw [hamount]; omega
    have hA := allow_refill hb hi0 hq
    have hrt : refilledTokens rl b (b.lastRefil + rl.interval) = min rl.rate rl.maxTokens := by
      rw [refilledTokens, hamount, ht, zero_add]
    rcases eq_or_lt_of_le (le_min hr hN : (0 : Int) ≤ min rl.rate rl.maxTokens) with hT0 | hT1
    · rw [if_neg (by rw [hrt]; omega)] at hA
      rw [← hT0]
      rw [allowResults_succ, hA]
      rfl
    · rw [if_pos (by rw [hrt]; omega)] at hA
      obtain ⟨m, hm⟩ : ∃ m, (min rl.rate rl.maxTokens).toNat = m + 1 :=
        ⟨(min rl.rate rl.maxTokens).toNat - 1, by omega⟩
      have hcast : refilledTokens rl b (b.lastRefil + rl.interval) - 1 = ((m : Nat) : Int) := by
        rw [hrt]; omega
      have hb2 : find ({ rl with
          tokens := insert rl.tokens key
            { tokens := refilledTokens rl b (b.lastRefil + rl.interval) - 1,
              lastSeen := b.lastRefil + rl.interval,
              lastRefil := b.lastRefil + rl.interval } } :
            RateLimiter).tokens key = some
          { tokens := ((m : Nat) : Int), lastSeen := b.lastRefil + rl.interval,
            lastRefil := b.lastRefil + rl.interval } := by
        simp [find_insert, hcast]
      have hdrain := allow_drain (m + 1) _ key (b.lastRefil + rl.interval) m
        (b.lastRefil + rl.interval) hb2 hi0
      rw [hm, allowResults_succ, hA]
      simp only [hdrain]
      have h1 : Nat.min m (m + 1) = m := by
        rw [nat_min_eq]
        split_ifs <;> omega
      rw [h1]
      have h2 : m + 1 - m = 1 := by omega
      rw [h2]
      simp [List.replicate_succ, List.cons_append]

/-- Witness for C4 at a concrete state: `rate = 2`, `maxTokens = 5`,
an exhausted bucket refilled after one interval admits exactly 2. -/
theorem c4_refill_after_interval_w :
    allowResults { tokens := [("a", { tokens := 0, lastSeen := 0, lastRefil := 0 })],
                   rate := 2, interval := 10, maxTokens := 5,
                   cleanupAfter := 3600000000000 } "a" 10 3 =
      some [true, true, false] := by
  have h := c4_refill_after_interval
    { tokens := [("a", { tokens := 0, lastSeen := 0, lastRefil := 0 })],
      rate := 2, interval := 10, maxTokens := 5, cleanupAfter := 3600000000000 }
    "a" { tokens := 0, lastSeen := 0, lastRefil := 0 }
    rfl rfl (by decide) (by decide) (by decide)
  exact h.trans (by decide)

/-- Counterexample to C9 as stated: with `maxTokens = 0` a single
caller already gets one `true`, exceeding the claimed bound `N = 0`. -/
theorem c9_counterexample :
    allowResults (NewRateLimiter 1 10 0) "a" 0 1 = some [true] ∧
    ¬ (([true] : List Bool).count true ≤ 0) := by
  constructor
  · decide
  · decide

/-- Claim C9 (amended, `maxTokens = N ≥ 1`): `K` callers invoking
`Allow` on the same key with no time advancement obtain at most `N`
`true` results in total. The single exclusive lock makes each call
atomic, so every concurrent interleaving of the `K` identical calls is
this sequential execution. -/
theorem c9_serialized_admission (r i now : Int) (key : String) (N K : Nat)
    (hN : 1 ≤ N) (hi : i ≠ 0) (l : List Bool)
    (hl : allowResults (NewRateLimiter r i (N : Int)) key now K = some l) :
    l.count true ≤ N := by
  cases K with
  | zero =>
    rw [show allowResults (NewRateLimiter r i (N : Int)) key now 0 = some [] from rfl] at hl
    injection hl with h
    rw [← h]
    simp
  | succ K =>
    have hfresh : find (NewRateLimiter r i (N : Int)).tokens key = none := rfl
    have hA := allow_new now hfresh
    have hcast : (NewRateLimiter r i (N : Int)).maxTokens - 1 = ((N - 1 : Nat) : Int) := by
      show (N : Int) - 1 = ((N - 1 : Nat) : Int)
      omega
    have hb2 : find ({ NewRateLimiter r i (N : Int) with
        tokens := insert (NewRateLimiter r i (N : Int)).tokens key
          { tokens := (NewRateLimiter r i (N : Int)).maxTokens - 1,
            lastSeen := now, lastRefil := now } } :
          RateLimiter).tokens key = some
        { tokens := ((N - 1 : Nat) : Int), lastSeen := now, lastRefil := now } := by
      simp [find_insert, hcast]
    have hdrain := allow_drain K _ key now (N - 1) now hb2 hi
    rw [allowResults_succ, hA] at hl
    simp only [hdrain] at hl
    injection hl with h
    rw [← h]
    have hmin : Nat.min (N - 1) K ≤ N - 1 := by
      rw [nat_min_eq]
      split_ifs <;> omega
    simp [List.count_cons, List.count_append, List.count_replicate]
    omega

/-- Witness for C9 (amended): 3 calls against `maxTokens = 2` yield at
most 2 `true` results. -/
theorem c9_serialized_admission_w : ([true, true, false] : List Bool).count true ≤ 2 :=
  c9_serialized_admission 1 10 0 "a" 2 3 (by decide) (by decide) [true, true, false]
    (by decide)

/-- Counterexample to C1 as stated: bucket with `lastRefil = 0`,
`interval = 10`, `rate = 1`; an `Allow` at `now = 15` (one whole
interval plus a 5 ns fraction elapsed) sets `lastRefil` to 15, not to
`0 + 1 * 10 = 10` as the claim requires, so the fractional 5 ns is
discarded. -/
theorem c1_counterexample :
    (Allow { tokens := [("a", { tokens := 0, lastSeen := 0, lastRefil := 0 })],
             rate := 1, interval := 10, maxTokens := 5,
             cleanupAfter := 3600000000000 } "a" 15).map
        (fun r => (r.1, find r.2.tokens "a")) =
      some (true, some { tokens := 0, lastSeen := 15, lastRefil := 15 }) ∧
    (15 : Int) ≠ 0 + Int.tdiv (15 - 0) 10 * 10 := by
  constructor
  · decide
  · decide

/-- Claim C1 (amended): when the refill step fires
(`tokensToAdd = wholeIntervalsElapsed * rate > 0`), `Allow` adds the
tokens capped at `maxTokens` but advances `lastRefillTime` to `now`,
discarding the fractional part of the elapsed time. -/
theorem c1_refill_resets_to_now (rl : RateLimiter) (key : String) (now : Int)
    (b : bucket) (hb : find rl.tokens key = some b) (hi : rl.interval ≠ 0)
    (hq : refillAmount rl b now > 0) :
    Allow rl key now =
      some (decide (refilledTokens rl b now > 0),
        { rl with
          tokens := insert rl.tokens key
            { tokens := if refilledTokens rl b now > 0 then refilledTokens rl b now - 1
                        else refilledTokens rl b now,
              lastSeen := now, lastRefil := now } }) := by
  have hA := allow_refill hb hi hq
  by_cases hT : refilledTokens rl b now > 0
  · rw [if_pos hT] at hA
    rw [hA]
    simp [hT]
  · rw [if_neg hT] at hA
    rw [hA]
    simp [hT]

/-- Witness for C1 (amended) at the concrete counterexample state. -/
theorem c1_refill_resets_to_now_w :
    Allow { tokens := [("a", { tokens := 0, lastSeen := 0, lastRefil := 0 })],
            rate := 1, interval := 10, maxTokens := 5,
            cleanupAfter := 3600000000000 } "a" 15 =
      some (true, { tokens := [("a", { tokens := 0, lastSeen := 15, lastRefil := 15 })],
                    rate := 1, interval := 10, maxTokens := 5,
                    cleanupAfter := 3600000000000 }) := by
  have h := c1_refill_resets_to_now
    { tokens := [("a", { tokens := 0, lastSeen := 0, lastRefil := 0 })],
      rate := 1, interval := 10, maxTokens := 5, cleanupAfter := 3600000000000 }
    "a" 15 { tokens := 0, lastSeen := 0, lastRefil := 0 }
    rfl (by decide) (by decide)
  exact h.trans (by decide)

/-- Claim C5: a key absent from the map behaves as a fully-refilled
bucket: `RemainingTokens` returns `maxTokens`, `NextAvailable` returns
zero, and the first `Allow` creates the bucket with
`tokens = maxTokens - 1` and returns `true`. -/
theorem c5_unseen_key (rl : RateLimiter) (key : String) (now : Int)
    (h : find rl.tokens key = none) :
    RemainingTokens rl key now = some (rl.maxTokens, rl) ∧
    NextAvailable rl key now = some (0, rl) ∧
    Allow rl key now = some (true, { rl with
      tokens := insert rl.tokens key
        { tokens := rl.maxTokens - 1, lastSeen := now, lastRefil := now } }) := by
  refine ⟨?_, ?_, ?_⟩
  · simp [RemainingTokens, h]
  · simp [NextAvailable, h]
  · simp [Allow, h]

/-- Witness for C5: a never-seen key on a fresh limiter. -/
theorem c5_unseen_key_w :
    RemainingTokens (NewRateLimiter 1 10 5) "a" 7 = some (5, NewRateLimiter 1 10 5) ∧
    NextAvailable (NewRateLimiter 1 10 5) "a" 7 = some (0, NewRateLimiter 1 10 5) ∧
    Allow (NewRateLimiter 1 10 5) "a" 7 =
      some (true, { NewRateLimiter 1 10 5 with
        tokens := insert (NewRateLimiter 1 10 5).tokens "a"
          { tokens := (NewRateLimiter 1 10 5).maxTokens - 1, lastSeen := 7, lastRefil := 7 } }) := by
  have h := c5_unseen_key (NewRateLimiter 1 10 5) "a" 7 rfl
  exact ⟨h.1.trans (by decide), h.2.1, h.2.2⟩

/-- Claim C6: `NextAvailable` returns zero for an unseen key or a
bucket with at least one token; for an existing bucket with zero
tokens (and a nonzero interval, else the Go code panics) it returns
`interval - (elapsed mod interval)` with `elapsed = now - lastRefil`. -/
theorem c6_next_available (rl : RateLimiter) (key : String) (now : Int) :
    (find rl.tokens key = none → NextAvailable rl key now = some (0, rl)) ∧
    (∀ b, find rl.tokens key = some b → b.tokens > 0 →
      NextAvailable rl key now = some (0, rl)) ∧
    (∀ b, find rl.tokens key = some b → b.tokens = 0 → rl.interval ≠ 0 →
      NextAvailable rl key now =
        some (rl.interval - Int.tmod (now - b.lastRefil) rl.interval, rl)) := by
  refine ⟨?_, ?_, ?_⟩
  · intro h
    simp [NextAvailable, h]
  · intro b hb hpos
    simp [NextAvailable, hb, hpos]
  · intro b hb hz hi
    simp [NextAvailable, hb, hz, hi]

/-- Witness for C6: bucket with zero tokens, `lastRefil = 0`,
`interval = 10`, queried at `now = 15`: 5 ns remain to the boundary. -/
theorem c6_next_available_w :
    NextAvailable { tokens := [("a", { tokens := 0, lastSeen := 3, lastRefil := 0 })],
                    rate := 1, interval := 10, maxTokens := 5,
                    cleanupAfter := 3600000000000 } "a" 15 =
      some (5, { tokens := [("a", { tokens := 0, lastSeen := 3, lastRefil := 0 })],
                 rate := 1, interval := 10, maxTokens := 5,
                 cleanupAfter := 3600000000000 }) := by
  have h := (c6_next_available
    { tokens := [("a", { tokens := 0, lastSeen := 3, lastRefil := 0 })],
      rate := 1, interval := 10, maxTokens := 5, cleanupAfter := 3600000000000 }
    "a" 15).2.2 { tokens := 0, lastSeen := 3, lastRefil := 0 } rfl rfl (by decide)
  exact h.trans (by decide)

/-- Claim C10: every operation that reaches the refill computation
divides by `interval`; with `interval = 0` the Go code panics
(modelled: the operation returns `none`), while with `interval > 0`
every operation is total. The spec states no `interval > 0`
precondition. -/
theorem c10_interval_precondition (rl : RateLimiter) (key : String) (now : Int) :
    (rl.interval = 0 →
      ∀ b, find rl.tokens key = some b →
        Allow rl key now = none ∧
        RemainingTokens rl key now = none ∧
        (¬ b.tokens > 0 → NextAvailable rl key now = none)) ∧
    (0 < rl.interval →
      (Allow rl key now).isSome ∧
      (RemainingTokens rl key now).isSome ∧
      (NextAvailable rl key now).isSome) := by
  constructor
  · intro h0 b hb
    refine ⟨?_, ?_, ?_⟩
    · simp [Allow, hb, h0]
    · simp [RemainingTokens, hb, h0]
    · intro hz
      simp [NextAvailable, hb, hz, h0]
  · intro hpos
    have hi : rl.interval ≠ 0 := by omega
    refine ⟨?_, ?_, ?_⟩
    · rcases hfind : find rl.tokens key with _ | b
      · simp [Allow, hfind]
      · simp only [Allow, hfind]
        split_ifs <;> simp_all
    · rcases hfind : find rl.tokens key with _ | b
      · simp [RemainingTokens, hfind]
      · simp [RemainingTokens, hfind, hi]
    · rcases hfind : find rl.tokens key with _ | b
      · simp [NextAvailable, hfind]
      · simp only [NextAvailable, hfind]
        split_ifs <;> simp_all

/-- Witness for C10: with `interval = 0` and an existing bucket all
three operations hit the division and diverge; with `interval = 10`
they are total. -/
theorem c10_interval_precondition_w :
    (Allow { tokens := [("a", { tokens := 0, lastSeen := 0, lastRefil := 0 })],
             rate := 1, interval := 0, maxTokens := 5,
             cleanupAfter := 3600000000000 } "a" 5 = none ∧
     RemainingTokens { tokens := [("a", { tokens := 0, lastSeen := 0, lastRefil := 0 })],
                       rate := 1, interval := 0, maxTokens := 5,
                       cleanupAfter := 3600000000000 } "a" 5 = none ∧
     NextAvailable { tokens := [("a", { tokens := 0, lastSeen := 0, lastRefil := 0 })],
                     rate := 1, interval := 0, maxTokens := 5,
                     cleanupAfter := 3600000000000 } "a" 5 = none) ∧
    (Allow (NewRateLimiter 1 10 5) "a" 5).isSome := by
  constructor
  · have h := (c10_interval_precondition
      { tokens := [("a", { tokens := 0, lastSeen := 0, lastRefil := 0 })],
        rate := 1, interval := 0, maxTokens := 5, cleanupAfter := 3600000000000 }
      "a" 5).1 rfl { tokens := 0, lastSeen := 0, lastRefil := 0 } rfl
    exact ⟨h.1, h.2.1, h.2.2 (by decide)⟩
  · exact ((c10_interval_precondition (NewRateLimiter 1 10 5) "a" 5).2 (by decide)).1

/-- Claim C7: `RemainingTokens` and `NextAvailable` leave the limiter
state unchanged, and the count `RemainingTokens` reports equals the
post-refill, pre-consumption token count of an `Allow` at the same
instant (the consumed token added back when `Allow` admits).
Hypotheses: the bucket respects its capacity bound, its `lastRefil`
is not in the future (Go's `time.Now` is monotone across the
lock-ordered operations), and the configuration is sane
(`rate ≥ 0`, `interval > 0`). -/
theorem c7_queries_pure (rl : RateLimiter) (key : String) (now : Int)
    (hcap : ∀ b, find rl.tokens key = some b → b.tokens ≤ rl.maxTokens)
    (hmono : ∀ b, find rl.tokens key = some b → b.lastRefil ≤ now)
    (hr : 0 ≤ rl.rate) (hi : 0 < rl.interval) :
    (∀ v s, RemainingTokens rl key now = some (v, s) → s = rl) ∧
    (∀ v s, NextAvailable rl key now = some (v, s) → s = rl) ∧
    (∀ v s, RemainingTokens rl key now = some (v, s) →
      ∃ res rl2 b2, Allow rl key now = some (res, rl2) ∧
        find rl2.tokens key = some b2 ∧
        b2.tokens + (if res then (1 : Int) else 0) = v) := by
  have hi0 : rl.interval ≠ 0 := by omega
  refine ⟨?_, ?_, ?_⟩
  · intro v s h
    rcases hfind : find rl.tokens key with _ | b
    · simp only [RemainingTokens, hfind, Option.some.injEq, Prod.mk.injEq] at h
      exact h.2.symm
    · simp only [RemainingTokens, hfind, if_neg hi0, Option.some.injEq, Prod.mk.injEq] at h
      exact h.2.symm
  · intro v s h
    rcases hfind : find rl.tokens key with _ | b
    · simp only [NextAvailable, hfind, Option.some.injEq, Prod.mk.injEq] at h
      exact h.2.symm
    · simp only [NextAvailable, hfind] at h
      split_ifs at h <;>
        [skip; skip] <;>
        · simp only [Option.some.injEq, Prod.mk.injEq] at h
          exact h.2.symm
  · intro v s h
    rcases hfind : find rl.tokens key with _ | b
    · simp only [RemainingTokens, hfind, Option.some.injEq, Prod.mk.injEq] at h
      refine ⟨true, _, { tokens := rl.maxTokens - 1, lastSeen := now, lastRefil := now },
        allow_new now hfind, ?_, ?_⟩
      · rw [find_insert]
        simp
      · obtain ⟨h1, _⟩ := h
        simp
        omega
    · simp only [RemainingTokens, hfind, if_neg hi0, Option.some.injEq, Prod.mk.injEq] at h
      obtain ⟨hv, _⟩ := h
      have hq0 : 0 ≤ refillAmount rl b now :=
        mul_nonneg (Int.tdiv_nonneg (sub_nonneg.mpr (hmono b hfind)) (le_of_lt hi)) hr
      have hvr : refilledTokens rl b now = v := by
        rw [refilledTokens, refillAmount]
        exact hv
      by_cases hq : refillAmount rl b now > 0
      · have hA := allow_refill hfind hi0 hq
        by_cases hT : refilledTokens rl b now > 0
        · rw [if_pos hT] at hA
          refine ⟨true, _,
            { tokens := refilledTokens rl b now - 1, lastSeen := now, lastRefil := now },
            hA, by rw [find_insert]; simp, ?_⟩
          simp
          omega
        · rw [if_neg hT] at hA
          refine ⟨false, _,
            { tokens := refilledTokens rl b now, lastSeen := now, lastRefil := now },
            hA, by rw [find_insert]; simp, ?_⟩
          simp
          omega
      · have hta : refillAmount rl b now = 0 := by omega
        have hApre := allow_norefill hfind hi0 hq
        have hv2 : b.tokens = v := by
          rw [← hvr, refilledTokens, hta, add_zero]
          exact (min_eq_left (hcap b hfind)).symm
        by_cases hbt : b.tokens > 0
        · rw [if_pos hbt] at hApre
          refine ⟨true, _,
            { tokens := b.tokens - 1, lastSeen := now, lastRefil := b.lastRefil },
            hApre, by rw [find_insert]; simp, ?_⟩
          simp
          omega
        · rw [if_neg hbt] at hApre
          refine ⟨false, _,
            { tokens := b.tokens, lastSeen := now, lastRefil := b.lastRefil },
            hApre, by rw [find_insert]; simp, ?_⟩
          simp
          omega

/-- Witness for C7: a bucket with 2 tokens, `rate = 1`, one whole
interval elapsed: `RemainingTokens` reports 3 and a simultaneous
`Allow` computes the same pre-consumption count. -/
theorem c7_queries_pure_w :
    ∃ res rl2 b2,
      Allow { tokens := [("a", { tokens := 2, lastSeen := 0, lastRefil := 0 })],
              rate := 1, interval := 10, maxTokens := 5,
              cleanupAfter := 3600000000000 } "a" 15 = some (res, rl2) ∧
      find rl2.tokens "a" = some b2 ∧
      b2.tokens + (if res then (1 : Int) else 0) = 3 := by
  have h := (c7_queries_pure
    { tokens := [("a", { tokens := 2, lastSeen := 0, lastRefil := 0 })],
      rate := 1, interval := 10, maxTokens := 5, cleanupAfter := 3600000000000 }
    "a" 15
    (by
      intro b hb
      have h2 : some ({ tokens := 2, lastSeen := 0, lastRefil := 0 } : bucket) = some b := hb
      obtain rfl := Option.some.inj h2
      decide)
    (by
      intro b hb
      have h2 : some ({ tokens := 2, lastSeen := 0, lastRefil := 0 } : bucket) = some b := hb
      obtain rfl := Option.some.inj h2
      decide)
    (by decide) (by decide)).2.2 3
    { tokens := [("a", { tokens := 2, lastSeen := 0, lastRefil := 0 })],
      rate := 1, interval := 10, maxTokens := 5, cleanupAfter := 3600000000000 }
    (by decide)
  exact h

/-- Claim C8: one reclamation sweep keeps exactly the buckets with
`now - lastSeen ≤ cleanupAfter` (unchanged) and removes the rest; an
`Allow` for an evicted key then behaves as a first-ever call, creating
a full-minus-one bucket and returning `true`. -/
theorem c8_cleanup_sweep (rl : RateLimiter) (now now2 : Int) (key : String)
    (hnd : (rl.tokens.map Prod.fst).Nodup) :
    (∀ k b, find (cleanupPass rl now).tokens k = some b ↔
      (find rl.tokens k = some b ∧ ¬ now - b.lastSeen > rl.cleanupAfter)) ∧
    (find (cleanupPass rl now).tokens key = none →
      Allow (cleanupPass rl now) key now2 = some (true, { cleanupPass rl now with
        tokens := insert (cleanupPass rl now).tokens key
          { tokens := rl.maxTokens - 1, lastSeen := now2, lastRefil := now2 } })) := by
  constructor
  · intro k b
    have hc : (cleanupPass rl now).tokens =
        rl.tokens.filter (fun kb => ! decide (now - kb.2.lastSeen > rl.cleanupAfter)) := rfl
    rw [hc, find_filter _ _ _ hnd]
    rcases hf : find rl.tokens k with _ | b0
    · simp
    · show (if (! decide (now - b0.lastSeen > rl.cleanupAfter)) = true then some b0 else none) =
          some b ↔ _
      by_cases hp : now - b0.lastSeen > rl.cleanupAfter
      · rw [if_neg (by simp [hp])]
        constructor
        · intro h
          exact Option.noConfusion h
        · rintro ⟨h1, h2⟩
          obtain rfl := Option.some.inj h1
          exact absurd hp h2
      · rw [if_pos (by simp [hp])]
        constructor
        · intro h
          obtain rfl := Option.some.inj h
          exact ⟨rfl, hp⟩
        · rintro ⟨h1, h2⟩
          obtain rfl := Option.some.inj h1
          rfl
  · intro h
    exact allow_new now2 h

/-- Witness for C8: with `cleanupAfter = 1h` (3600000000000 ns) a sweep
at `now = 4000000000000` keeps the bucket seen at `t = 1000000000000`. -/
theorem c8_cleanup_sweep_w :
    find (cleanupPass { tokens := [("old", { tokens := 1, lastSeen := 0, lastRefil := 0 }),
                                   ("new", { tokens := 3, lastSeen := 1000000000000, lastRefil := 0 })],
                        rate := 1, interval := 10, maxTokens := 5,
                        cleanupAfter := 3600000000000 } 4000000000000).tokens "new" =
      some { tokens := 3, lastSeen := 1000000000000, lastRefil := 0 } := by
  have h := (c8_cleanup_sweep
    { tokens := [("old", { tokens := 1, lastSeen := 0, lastRefil := 0 }),
                 ("new", { tokens := 3, lastSeen := 1000000000000, lastRefil := 0 })],
      rate := 1, interval := 10, maxTokens := 5, cleanupAfter := 3600000000000 }
    4000000000000 0 "old" (by decide)).1 "new"
    { tokens := 3, lastSeen := 1000000000000, lastRefil := 0 }
  exact h.mpr ⟨by decide, by decide⟩

/-- `RemainingTokens` never changes the limiter state. -/
theorem remaining_state_eq {rl : RateLimiter} {key : String} {now : Int}
    {p : Int × RateLimiter} (h : RemainingTokens rl key now = some p) : p.2 = rl := by
  rcases hfind : find rl.tokens key with _ | b
  · simp only [RemainingTokens, hfind, Option.some.injEq] at h
    rw [← h]
  · simp only [RemainingTokens, hfind] at h
    split_ifs at h
    all_goals
      first
        | (simp only [Option.some.injEq] at h
           rw [← h])
        | simp at h

/-- `NextAvailable` never changes the limiter state. -/
theorem next_state_eq {rl : RateLimiter} {key : String} {now : Int}
    {p : Int × RateLimiter} (h : NextAvailable rl key now = some p) : p.2 = rl := by
  rcases hfind : find rl.tokens key with _ | b
  · simp only [NextAvailable, hfind, Option.some.injEq] at h
    rw [← h]
  · simp only [NextAvailable, hfind] at h
    split_ifs at h
    all_goals
      first
        | (simp only [Option.some.injEq] at h
           rw [← h])
        | simp at h

/-- The C2 bucket invariant: every bucket in the map holds between 0
and `M` tokens. -/
def InvTokens (M : Int) (m : List (String × bucket)) : Prop :=
  ∀ kb ∈ m, 0 ≤ kb.2.tokens ∧ kb.2.tokens ≤ M

theorem invTokens_insert {M : Int} {m : List (String × bucket)} {key : String}
    {b : bucket} (h : InvTokens M m) (hb : 0 ≤ b.tokens ∧ b.tokens ≤ M) :
    InvTokens M (insert m key b) := by
  intro kb hkb
  rcases mem_insert hkb with rfl | hkb2
  · exact hb
  · exact h kb hkb2

/-- `Allow` preserves the bucket invariant and the configuration. -/
theorem allow_invariant {rl : RateLimiter} {key : String} {now : Int} {res : Bool}
    {rl2 : RateLimiter} (hM : 1 ≤ rl.maxTokens)
    (hinv : InvTokens rl.maxTokens rl.tokens)
    (hA : Allow rl key now = some (res, rl2)) :
    rl2.rate = rl.rate ∧ rl2.interval = rl.interval ∧ rl2.maxTokens = rl.maxTokens ∧
    rl2.cleanupAfter = rl.cleanupAfter ∧ InvTokens rl.maxTokens rl2.tokens := by
  rcases hfind : find rl.tokens key with _ | b
  · rw [allow_new now hfind] at hA
    simp only [Option.some.injEq, Prod.mk.injEq] at hA
    obtain ⟨-, rfl⟩ := hA
    exact ⟨rfl, rfl, rfl, rfl, invTokens_insert hinv ⟨by simp <;> omega, by simp <;> omega⟩⟩
  · have hb : 0 ≤ b.tokens ∧ b.tokens ≤ rl.maxTokens := hinv (key, b) (find_mem hfind)
    by_cases hi0 : rl.interval = 0
    · simp [Allow, hfind, hi0] at hA
    · by_cases hq : refillAmount rl b now > 0
      · rw [allow_refill hfind hi0 hq] at hA
        have hT0 : 0 ≤ refilledTokens rl b now := by
          rw [refilledTokens]
          exact le_min (by omega) (by omega)
        have hT1 : refilledTokens rl b now ≤ rl.maxTokens := by
          rw [refilledTokens]
          exact min_le_right _ _
        split_ifs at hA with hT
        · simp only [Option.some.injEq, Prod.mk.injEq] at hA
          obtain ⟨-, rfl⟩ := hA
          exact ⟨rfl, rfl, rfl, rfl, invTokens_insert hinv ⟨by simp <;> omega, by simp <;> omega⟩⟩
        · simp only [Option.some.injEq, Prod.mk.injEq] at hA
          obtain ⟨-, rfl⟩ := hA
          exact ⟨rfl, rfl, rfl, rfl, invTokens_insert hinv ⟨by simp <;> omega, by simp <;> omega⟩⟩
      · rw [allow_norefill hfind hi0 hq] at hA
        split_ifs at hA with hT
        · simp only [Option.some.injEq, Prod.mk.injEq] at hA
          obtain ⟨-, rfl⟩ := hA
          exact ⟨rfl, rfl, rfl, rfl, invTokens_insert hinv ⟨by simp <;> omega, by simp <;> omega⟩⟩
        · simp only [Option.some.injEq, Prod.mk.injEq] at hA
          obtain ⟨-, rfl⟩ := hA
          exact ⟨rfl, rfl, rfl, rfl, invTokens_insert hinv ⟨by simp <;> omega, by simp <;> omega⟩⟩

/-- The reclamation sweep preserves the bucket invariant. -/
theorem cleanup_invariant {M : Int} {rl : RateLimiter} {now : Int}
    (hinv : InvTokens M rl.tokens) : InvTokens M (cleanupPass rl now).tokens := by
  intro kb hkb
  exact hinv kb (List.mem_of_mem_filter hkb)

/-- Every operation preserves the bucket invariant and `maxTokens`. -/
theorem step_invariant {rl rl2 : RateLimiter} {op : Op} (hM : 1 ≤ rl.maxTokens)
    (hinv : InvTokens rl.maxTokens rl.tokens) (h : step rl op = some rl2) :
    rl2.maxTokens = rl.maxTokens ∧ InvTokens rl.maxTokens rl2.tokens := by
  cases op with
  | allow key now =>
    simp only [step] at h
    obtain ⟨⟨res, rl2'⟩, hA, he⟩ := Option.map_eq_some'.mp h
    obtain rfl : rl2' = rl2 := he
    have hall := allow_invariant hM hinv hA
    exact ⟨hall.2.2.1, hall.2.2.2.2⟩
  | remaining key now =>
    simp only [step] at h
    obtain ⟨p, hp, he⟩ := Option.map_eq_some'.mp h
    have hs := remaining_state_eq hp
    rw [← he, hs]
    exact ⟨rfl, hinv⟩
  | next key now =>
    simp only [step] at h
    obtain ⟨p, hp, he⟩ := Option.map_eq_some'.mp h
    have hs := next_state_eq hp
    rw [← he, hs]
    exact ⟨rfl, hinv⟩
  | sweep now =>
    simp only [step, Option.some.injEq] at h
    rw [← h]
    exact ⟨rfl, cleanup_invariant hinv⟩

/-- Any completed run of operations preserves the bucket invariant. -/
theorem runOps_invariant : ∀ (ops : List Op) (rl rl2 : RateLimiter),
    1 ≤ rl.maxTokens → InvTokens rl.maxTokens rl.tokens → runOps rl ops = some rl2 →
    rl2.maxTokens = rl.maxTokens ∧ InvTokens rl.maxTokens rl2.tokens := by
  intro ops
  induction ops with
  | nil =>
    intro rl rl2 hM hinv h
    simp only [runOps, Option.some.injEq] at h
    rw [← h]
    exact ⟨rfl, hinv⟩
  | cons op rest ih =>
    intro rl rl2 hM hinv h
    rcases hs : step rl op with _ | rl1
    · rw [show runOps rl (op :: rest) =
          (match step rl op with
           | none => none
           | some rl1 => runOps rl1 rest) from rfl, hs] at h
      exact Option.noConfusion h
    · rw [show runOps rl (op :: rest) =
          (match step rl op with
           | none => none
           | some rl1 => runOps rl1 rest) from rfl, hs] at h
      have h2 : runOps rl1 rest = some rl2 := h
      obtain ⟨hmax1, hinv1⟩ := step_invariant hM hinv hs
      have hM1 : 1 ≤ rl1.maxTokens := by omega
      have hinv1' : InvTokens rl1.maxTokens rl1.tokens := by
        rw [hmax1]
        exact hinv1
      obtain ⟨ha, hb2⟩ := ih rl1 rl2 hM1 hinv1' h2
      refine ⟨by omega, ?_⟩
      rw [← hmax1]
      exact hb2

/-- Counterexample to C2 as stated: with `maxTokens = 0` the very
first `Allow` creates a bucket with `tokens = -1 < 0`. -/
theorem c2_counterexample :
    (runOps (NewRateLimiter 1 10 0) [Op.allow "a" 0]).map (fun rl => find rl.tokens "a") =
      some (some { tokens := -1, lastSeen := 0, lastRefil := 0 }) ∧
    ¬ ((0 : Int) ≤ -1) := by
  constructor
  · decide
  · decide

/-- Claim C2 (amended, `maxTokens ≥ 1`): after any completed sequence
of `Allow`, `RemainingTokens`, `NextAvailable` and cleanup-sweep
operations from a fresh limiter, every bucket in the map satisfies
`0 ≤ tokens ≤ maxTokens`. -/
theorem c2_bucket_inv (r i M : Int) (ops : List Op) (rl2 : RateLimiter)
    (hM : 1 ≤ M) (h : runOps (NewRateLimiter r i M) ops = some rl2) :
    ∀ kb ∈ rl2.tokens, 0 ≤ kb.2.tokens ∧ kb.2.tokens ≤ M := by
  have hinv0 : InvTokens (NewRateLimiter r i M).maxTokens (NewRateLimiter r i M).tokens := by
    intro kb hkb
    simp [NewRateLimiter] at hkb
  have hrun := runOps_invariant ops (NewRateLimiter r i M) rl2 hM hinv0 h
  exact hrun.2

/-- Witness for C2 (amended): a run with `maxTokens = 2` consisting of
an `Allow`, a query, a refilling `Allow` and a sweep. -/
theorem c2_bucket_inv_w :
    0 ≤ ({ tokens := 1, lastSeen := 25, lastRefil := 25 } : bucket).tokens ∧
    ({ tokens := 1, lastSeen := 25, lastRefil := 25 } : bucket).tokens ≤ 2 :=
  c2_bucket_inv 1 10 2 [Op.allow "a" 0, Op.remaining "a" 5, Op.allow "a" 25, Op.sweep 30]
    { tokens := [("a", { tokens := 1, lastSeen := 25, lastRefil := 25 })],
      rate := 1, interval := 10, maxTokens := 2, cleanupAfter := 3600000000000 }
    (by decide) (by decide)
    ("a", { tokens := 1, lastSeen := 25, lastRefil := 25 }) (by decide)

end Limiter
